import Mathlib

/-!
Verification of the columnar table storage engine specification against the
repository's driver programs (`cpp_benchmark.cpp`, `cpp_benchmark_instrumented.cpp`,
`syscall_tracer.cpp`).  The drivers exercise an external table library; the engine
itself (table creation, column accessors, write strategies, allocation strategies,
verifier) is modelled from the specification, while the driver logic (data layout,
loop structure, the argument parser) is embedded directly from the source files.
Numeric cell values are modelled exactly as rationals.
-/

namespace CasaTables

/-- Modelled from the spec: element types of a column
(`element_type: {Bool, Int32, Float64, Complex64}`). -/
inductive ElementType
  | bool
  | int32
  | float64
  | complex64
deriving DecidableEq

/-- Modelled from the spec: shape class of a column
(`Scalar | FixedArray(dims) | VariableArray`). -/
inductive ShapeClass
  | scalar
  | fixedArray (dims : List Nat)
  | variableArray
deriving DecidableEq

/-- Modelled from the spec: one column definition
(`ColumnSpec { name, element_type, shape_class }`). -/
structure ColumnSpec where
  name : String
  elementType : ElementType
  shapeClass : ShapeClass
deriving DecidableEq

/-- Modelled from the spec: a `TableDescriptor` is an ordered sequence of
`ColumnSpec`, immutable after table creation. -/
structure TableDescriptor where
  columns : List ColumnSpec
deriving DecidableEq

/-- Modelled from the spec: the value held by one cell: a shape together with the
flat element list (scalars use the empty shape; complex elements are flattened
into their real and imaginary parts, so elements are plain numbers). -/
structure CellValue where
  shape : List Nat
  values : List ℚ
deriving DecidableEq

/-- Modelled from the spec: the allocation strategy chosen at table creation
(`LazyZeroFill | PreTruncate | PreReserve`). -/
inductive AllocationStrategy
  | lazyZeroFill
  | preTruncate
  | preReserve
deriving DecidableEq

/-- Modelled from the spec: the error taxonomy of section 7. -/
inductive TableError
  | schemaError
  | allocationError
  | shapeMismatchError
  | bulkShapeError
  | notFoundError
  | indexError
  | missingColumnError
  | useAfterCloseError
deriving DecidableEq

/-- Modelled from the spec: a `Table` owns its descriptor, its row count, and its
backing storage.  `cells` records every cell that has been written;
`fill` is the content read back from a never-written cell (the type's zero value
under `LazyZeroFill`, implementation-defined storage content otherwise);
`alloc` is the allocation strategy the table was created with. -/
@[ext]
structure Table where
  desc : TableDescriptor
  row_count : Nat
  cells : String → Nat → Option CellValue
  fill : String → Nat → CellValue
  alloc : AllocationStrategy

/-- Look a column up by name in a descriptor (first match in declaration order). -/
def findColumn (d : TableDescriptor) (name : String) : Option ColumnSpec :=
  d.columns.find? (fun c => c.name = name)

/-- The names of a descriptor's columns, in declaration order. -/
def colNames (d : TableDescriptor) : List String :=
  d.columns.map (fun c => c.name)

/-- Modelled from the spec: the shape contract of a per-cell put: a scalar column
takes the empty shape, a `FixedArray` column takes exactly the declared dims,
a `VariableArray` column accepts any shape. -/
def shapeOK (c : ColumnSpec) (v : CellValue) : Bool :=
  match c.shapeClass with
  | .scalar => v.shape = []
  | .fixedArray dims => v.shape = dims
  | .variableArray => true

/-- Modelled from the spec: the zero value of a column's declared type and shape,
read back from unwritten cells under `LazyZeroFill`. -/
def zeroValue (c : ColumnSpec) : CellValue :=
  match c.shapeClass with
  | .scalar => ⟨[], [0]⟩
  | .fixedArray dims => ⟨dims, List.replicate dims.prod 0⟩
  | .variableArray => ⟨[], []⟩

/-- Modelled from the spec: `create(descriptor, location, initial_row_count,
allocation_strategy) -> Table`.  `medium` stands for the implementation-defined
content of storage regions that were extended without being written
(`PreTruncate` / `PreReserve`); under `LazyZeroFill` unwritten cells are
guaranteed to read back as the type's zero value. -/
def Table.create (d : TableDescriptor) (n : Nat) (s : AllocationStrategy)
    (medium : String → Nat → CellValue) : Table :=
  { desc := d
    row_count := n
    cells := fun _ _ => none
    fill :=
      match s with
      | .lazyZeroFill => fun nm _ =>
          match findColumn d nm with
          | some c => zeroValue c
          | none => ⟨[], []⟩
      | _ => medium
    alloc := s }

/-- Modelled from the spec: `column(name) -> ColumnAccessor`, failing with
`NotFoundError` when the name is unknown.  The accessor is a non-owning typed
view; in the model it is identified with the column's spec. -/
def Table.column (t : Table) (name : String) : Except TableError ColumnSpec :=
  match findColumn t.desc name with
  | some c => .ok c
  | none => .error .notFoundError

/-- Modelled from the spec: single-cell `put(row_index, value)`: unknown column
names fail with `NotFoundError`, a shape violating the column's contract fails
with `ShapeMismatchError`, a row index at or beyond `row_count` fails with
`IndexError`; otherwise the cell is overwritten. -/
def cellPut (t : Table) (name : String) (r : Nat) (v : CellValue) :
    Except TableError Table :=
  match findColumn t.desc name with
  | none => .error .notFoundError
  | some c =>
    if shapeOK c v then
      if r < t.row_count then
        .ok { t with cells := fun nm i =>
                if nm = name ∧ i = r then some v else t.cells nm i }
      else .error .indexError
    else .error .shapeMismatchError

/-- The logical content of one cell: the written value when the cell has been
written, the storage's fill content otherwise. -/
def cellRead (t : Table) (name : String) (r : Nat) : CellValue :=
  (t.cells name r).getD (t.fill name r)

/-- Modelled from the spec: single-cell `get(row_index)`: unknown column names
fail with `NotFoundError`, out-of-range rows with `IndexError`. -/
def cellGet (t : Table) (name : String) (r : Nat) : Except TableError CellValue :=
  match findColumn t.desc name with
  | none => .error .notFoundError
  | some _ =>
    if r < t.row_count then .ok (cellRead t name r)
    else .error .indexError

/-- Write a list of (column, row, value) cell puts in order, stopping at the
first failure. -/
def putCells (t : Table) : List (String × Nat × CellValue) → Except TableError Table
  | [] => .ok t
  | (nm, r, v) :: rest =>
    match cellPut t nm r v with
    | .ok t' => putCells t' rest
    | .error e => .error e

/-- Modelled from the spec: the Row Accessor's `commit()`: all values set for one
row are written in one call; it fails with `MissingColumnError` when a column
declared in the descriptor was never set. -/
def rowPut (t : Table) (r : Nat) (vals : List (String × CellValue)) :
    Except TableError Table :=
  if t.desc.columns.all (fun c => vals.any (fun p => p.1 = c.name)) then
    putCells t (vals.map (fun p => (p.1, r, p.2)))
  else .error .missingColumnError

/-- Whether all values in a list share one shape (the bulk write requirement). -/
def shapesEqual : List CellValue → Bool
  | [] => true
  | v :: rest => rest.all (fun w => w.shape = v.shape)

/-- Modelled from the spec: `ColumnBulkPut`'s `put_all`: the entire column extent
is written in one logical operation; all rows must share one shape
(`BulkShapeError` otherwise), the value count must cover every row, and the
shared shape must satisfy the column's contract. -/
def bulkPut (t : Table) (name : String) (vals : List CellValue) :
    Except TableError Table :=
  match findColumn t.desc name with
  | none => .error .notFoundError
  | some c =>
    if vals.length = t.row_count then
      if shapesEqual vals then
        if vals.all (fun v => shapeOK c v) then
          .ok { t with cells := fun nm i =>
                  if nm = name ∧ i < t.row_count then vals.get? i else t.cells nm i }
        else .error .shapeMismatchError
      else .error .bulkShapeError
    else .error .bulkShapeError

/-- The sum of all elements of one cell value (real and imaginary parts of
complex elements are separate list entries, so this folds every element). -/
def cellSum (v : CellValue) : ℚ :=
  v.values.sum

/-- Modelled from the spec: the Verifier's `checksum(table)`: iterate rows in
ascending index order and, within each row, columns in descriptor order, adding
every element of every cell into one running accumulator. -/
def checksum (t : Table) : ℚ :=
  ((List.range t.row_count).map (fun r =>
    (t.desc.columns.map (fun c => cellSum (cellRead t c.name r))).sum)).sum

theorem cellPut_ok (t : Table) (nm : String) (r : Nat) (v : CellValue) (c : ColumnSpec)
    (hfind : findColumn t.desc nm = some c) (hshape : shapeOK c v = true)
    (hr : r < t.row_count) :
    cellPut t nm r v = .ok { t with cells := fun nm' i =>
        if nm' = nm ∧ i = r then some v else t.cells nm' i } := by
  unfold cellPut
  rw [hfind]
  simp [hshape, hr]

open Classical in
/-- A sequence of cell puts whose values are a function `data` of the cell's
coordinates, all aimed at declared columns with conforming shapes and in-range
rows, succeeds and leaves exactly the touched cells holding their `data` value. -/
theorem putCells_ok (data : String → Nat → CellValue) :
    ∀ (ps : List (String × Nat × CellValue)) (t : Table),
    (∀ p ∈ ps, (∃ c, findColumn t.desc p.1 = some c ∧ shapeOK c p.2.2 = true) ∧
       p.2.1 < t.row_count ∧ p.2.2 = data p.1 p.2.1) →
    ∃ t', putCells t ps = .ok t' ∧ t'.desc = t.desc ∧ t'.row_count = t.row_count ∧
      t'.fill = t.fill ∧ t'.alloc = t.alloc ∧
      ∀ nm r, t'.cells nm r =
        if ∃ v, (nm, r, v) ∈ ps then some (data nm r) else t.cells nm r := by
  intro ps
  induction ps with
  | nil =>
    intro t _
    exact ⟨t, rfl, rfl, rfl, rfl, rfl, by simp⟩
  | cons p rest ih =>
    intro t hvalid
    obtain ⟨nm0, r0, v0⟩ := p
    obtain ⟨⟨c, hfind, hshape⟩, hr, hv⟩ := hvalid _ (List.mem_cons_self _ _)
    simp only at hfind hshape hr hv
    set t1 : Table := { t with cells := fun nm' i =>
        if nm' = nm0 ∧ i = r0 then some v0 else t.cells nm' i } with ht1
    have hput : cellPut t nm0 r0 v0 = .ok t1 := cellPut_ok t nm0 r0 v0 c hfind hshape hr
    obtain ⟨t', hrun, hdesc, hcount, hfill, halloc, hcells⟩ :=
      ih t1 (by
        intro q hq
        exact hvalid q (List.mem_cons_of_mem _ hq))
    refine ⟨t', ?_, hdesc, hcount, hfill, halloc, ?_⟩
    · simpa [putCells, hput] using hrun
    · intro nm r
      rw [hcells nm r]
      by_cases h1 : ∃ v, (nm, r, v) ∈ rest
      · rw [if_pos h1, if_pos ⟨h1.choose, List.mem_cons_of_mem _ h1.choose_spec⟩]
      · by_cases h2 : nm = nm0 ∧ r = r0
        · obtain ⟨hnm, hrr⟩ := h2
          subst hnm hrr
          rw [if_neg h1, if_pos ⟨v0, List.mem_cons_self _ _⟩]
          simp [ht1, hv]
        · have hcons : ¬ ∃ v, (nm, r, v) ∈ (nm0, r0, v0) :: rest := by
            rintro ⟨v, hmem⟩
            rcases List.mem_cons.mp hmem with heq | htail
            · cases heq
              exact h2 ⟨rfl, rfl⟩
            · exact h1 ⟨v, htail⟩
          rw [if_neg h1, if_neg hcons]
          simp [ht1, h2]

/-- The second table keeps the first one's descriptor, row count, fill content
and allocation strategy (writes only change cell content). -/
def SameFrame (t' t : Table) : Prop :=
  t'.desc = t.desc ∧ t'.row_count = t.row_count ∧ t'.fill = t.fill ∧ t'.alloc = t.alloc

/-- The dataset fits the descriptor: every value aimed at a declared column
satisfies the column's shape contract, and all rows of one column share one
shape (the requirement of the bulk write path). -/
abbrev DataFits (d : TableDescriptor) (n : Nat) (data : String → Nat → CellValue) : Prop :=
  ∀ c ∈ d.columns, ∀ r < n, shapeOK c (data c.name r) = true ∧
    (data c.name r).shape = (data c.name 0).shape

theorem findColumn_mem (d : TableDescriptor) (nm : String) (h : nm ∈ colNames d) :
    ∃ c, findColumn d nm = some c ∧ c ∈ d.columns ∧ c.name = nm := by
  obtain ⟨c0, hc0, hname⟩ := List.mem_map.mp h
  have hsome : (d.columns.find? (fun c => c.name = nm)).isSome := by
    rw [List.find?_isSome]
    exact ⟨c0, hc0, by simp [hname]⟩
  obtain ⟨c, hc⟩ := Option.isSome_iff_exists.mp hsome
  refine ⟨c, hc, List.mem_of_find?_eq_some hc, ?_⟩
  have := List.find?_some hc
  simpa using this

/-- The `CellPut` write strategy: for each column in descriptor order, for each
row in ascending order, one single-cell put (the loop structure of the
`column_put_bulk` branch of `cpp_benchmark.cpp`). -/
def cellPutTriples (d : TableDescriptor) (n : Nat) (data : String → Nat → CellValue) :
    List (String × Nat × CellValue) :=
  (colNames d).flatMap (fun nm => (List.range n).map (fun r => (nm, r, data nm r)))

def writeCellPut (t : Table) (data : String → Nat → CellValue) :
    Except TableError Table :=
  putCells t (cellPutTriples t.desc t.row_count data)

theorem mem_cellPutTriples (d : TableDescriptor) (n : Nat)
    (data : String → Nat → CellValue) (nm : String) (r : Nat) :
    (∃ v, (nm, r, v) ∈ cellPutTriples d n data) ↔ nm ∈ colNames d ∧ r < n := by
  constructor
  · rintro ⟨v, hv⟩
    simp only [cellPutTriples, List.mem_flatMap, List.mem_map, List.mem_range] at hv
    obtain ⟨nm', hnm', r', hr', heq⟩ := hv
    cases heq
    exact ⟨hnm', hr'⟩
  · rintro ⟨h1, h2⟩
    refine ⟨data nm r, ?_⟩
    simp only [cellPutTriples, List.mem_flatMap, List.mem_map, List.mem_range]
    exact ⟨nm, h1, r, h2, rfl⟩

open Classical in
/-- Writing a fitting dataset under the `CellPut` strategy succeeds and leaves
every declared cell holding its dataset value. -/
theorem writeCellPut_ok (t : Table) (data : String → Nat → CellValue)
    (hfits : DataFits t.desc t.row_count data) :
    ∃ t', writeCellPut t data = .ok t' ∧ SameFrame t' t ∧
      ∀ nm r, t'.cells nm r =
        if nm ∈ colNames t.desc ∧ r < t.row_count then some (data nm r)
        else t.cells nm r := by
  obtain ⟨t', hrun, hdesc, hcount, hfill, halloc, hcells⟩ :=
    putCells_ok data (cellPutTriples t.desc t.row_count data) t (by
      intro p hp
      simp only [cellPutTriples, List.mem_flatMap, List.mem_map, List.mem_range] at hp
      obtain ⟨nm', hnm', r', hr', heq⟩ := hp
      subst heq
      obtain ⟨c, hfind, hmem, hname⟩ := findColumn_mem t.desc nm' hnm'
      refine ⟨⟨c, hfind, ?_⟩, hr', rfl⟩
      have := (hfits c hmem r' hr').1
      rwa [hname] at this)
  refine ⟨t', hrun, ⟨hdesc, hcount, hfill, halloc⟩, ?_⟩
  intro nm r
  rw [hcells nm r,
    if_congr (mem_cellPutTriples t.desc t.row_count data nm r) rfl rfl]

/-- One row's (column name → value) record, in descriptor order, as built by the
row-wise write loop. -/
def rowVals (d : TableDescriptor) (data : String → Nat → CellValue) (r : Nat) :
    List (String × CellValue) :=
  (colNames d).map (fun nm => (nm, data nm r))

/-- The `RowPut` write strategy: for each row in ascending order, one Row
Accessor commit covering every column. -/
def rowPutRows (data : String → Nat → CellValue) :
    Table → List Nat → Except TableError Table
  | t, [] => .ok t
  | t, r :: rest =>
    match rowPut t r (rowVals t.desc data r) with
    | .ok t' => rowPutRows data t' rest
    | .error e => .error e

def writeRowPut (t : Table) (data : String → Nat → CellValue) :
    Except TableError Table :=
  rowPutRows data t (List.range t.row_count)

theorem rowPut_full (t : Table) (data : String → Nat → CellValue) (r : Nat) :
    rowPut t r (rowVals t.desc data r) =
      putCells t ((rowVals t.desc data r).map (fun p => (p.1, r, p.2))) := by
  unfold rowPut
  rw [if_pos]
  rw [List.all_eq_true]
  intro c hc
  rw [List.any_eq_true]
  refine ⟨(c.name, data c.name r), ?_, by simp⟩
  simp only [rowVals, List.mem_map]
  exact ⟨c.name, List.mem_map.mpr ⟨c, hc, rfl⟩, rfl⟩

/-- The cell writes issued by one row commit, as (column, row, value) triples. -/
def rowTriples (d : TableDescriptor) (data : String → Nat → CellValue) (r0 : Nat) :
    List (String × Nat × CellValue) :=
  (colNames d).map (fun nm => (nm, r0, data nm r0))

theorem rowVals_map (d : TableDescriptor) (data : String → Nat → CellValue) (r0 : Nat) :
    (rowVals d data r0).map (fun p => (p.1, r0, p.2)) = rowTriples d data r0 := by
  simp only [rowVals, rowTriples, List.map_map]
  rfl

theorem mem_rowTriples (d : TableDescriptor) (data : String → Nat → CellValue)
    (r0 : Nat) (nm : String) (r : Nat) :
    (∃ v, (nm, r, v) ∈ rowTriples d data r0) ↔ nm ∈ colNames d ∧ r = r0 := by
  constructor
  · rintro ⟨v, hv⟩
    simp only [rowTriples, List.mem_map] at hv
    obtain ⟨nm', hnm', heq⟩ := hv
    cases heq
    exact ⟨hnm', rfl⟩
  · rintro ⟨h1, rfl⟩
    refine ⟨data nm r, ?_⟩
    simp only [rowTriples, List.mem_map]
    exact ⟨nm, h1, rfl⟩

open Classical in
/-- Writing a fitting dataset row-by-row through the Row Accessor succeeds for
any list of in-range rows and leaves every touched cell holding its dataset
value. -/
theorem rowPutRows_ok (data : String → Nat → CellValue) :
    ∀ (rs : List Nat) (t : Table),
    DataFits t.desc t.row_count data →
    (∀ r ∈ rs, r < t.row_count) →
    ∃ t', rowPutRows data t rs = .ok t' ∧ SameFrame t' t ∧
      ∀ nm r, t'.cells nm r =
        if nm ∈ colNames t.desc ∧ r ∈ rs then some (data nm r) else t.cells nm r := by
  intro rs
  induction rs with
  | nil =>
    intro t _ _
    exact ⟨t, rfl, ⟨rfl, rfl, rfl, rfl⟩, by simp⟩
  | cons r0 rest ih =>
    intro t hfits hrange
    have hr0 : r0 < t.row_count := hrange r0 (List.mem_cons_self _ _)
    obtain ⟨t1, hrun1, hdesc1, hcount1, hfill1, halloc1, hcells1⟩ :=
      putCells_ok data (rowTriples t.desc data r0) t (by
        intro p hp
        simp only [rowTriples, List.mem_map] at hp
        obtain ⟨nm', hnm', heq⟩ := hp
        subst heq
        obtain ⟨c, hfind, hmem, hname⟩ := findColumn_mem t.desc nm' hnm'
        refine ⟨⟨c, hfind, ?_⟩, hr0, rfl⟩
        have := (hfits c hmem r0 hr0).1
        rwa [hname] at this)
    have hstep : rowPut t r0 (rowVals t.desc data r0) = .ok t1 := by
      rw [rowPut_full, rowVals_map]
      exact hrun1
    obtain ⟨t2, hrun2, ⟨hdesc2, hcount2, hfill2, halloc2⟩, hcells2⟩ :=
      ih t1 (by rw [hdesc1, hcount1]; exact hfits)
        (by
          intro r hr
          rw [hcount1]
          exact hrange r (List.mem_cons_of_mem _ hr))
    refine ⟨t2, ?_, ⟨hdesc2.trans hdesc1, hcount2.trans hcount1,
      hfill2.trans hfill1, halloc2.trans halloc1⟩, ?_⟩
    · show rowPutRows data t (r0 :: rest) = .ok t2
      unfold rowPutRows
      rw [hstep]
      exact hrun2
    · intro nm r
      rw [hcells2 nm r, hcells1 nm r, hdesc1,
        if_congr (mem_rowTriples t.desc data r0 nm r) rfl rfl]
      by_cases hnm : nm ∈ colNames t.desc
      · by_cases hrest : r ∈ rest
        · rw [if_pos ⟨hnm, hrest⟩, if_pos ⟨hnm, List.mem_cons_of_mem _ hrest⟩]
        · by_cases hr0' : r = r0
          · rw [if_neg (by tauto), if_pos ⟨hnm, hr0'⟩,
              if_pos ⟨hnm, by rw [hr0']; exact List.mem_cons_self _ _⟩]
          · rw [if_neg (by tauto), if_neg (by tauto),
              if_neg (by
                rintro ⟨h1, h2⟩
                rcases List.mem_cons.mp h2 with h | h
                · exact hr0' h
                · exact hrest h)]
      · rw [if_neg (by tauto), if_neg (by tauto), if_neg (by tauto)]

theorem bulkPut_ok (t : Table) (nm : String) (c : ColumnSpec) (vals : List CellValue)
    (hfind : findColumn t.desc nm = some c)
    (hlen : vals.length = t.row_count)
    (hsh : shapesEqual vals = true)
    (hall : vals.all (fun v => shapeOK c v) = true) :
    bulkPut t nm vals = .ok { t with cells := fun nm' i =>
        if nm' = nm ∧ i < t.row_count then vals.get? i else t.cells nm' i } := by
  unfold bulkPut
  rw [hfind]
  simp [hlen, hsh, hall]

theorem shapesEqual_of_const (vals : List CellValue) (s : List Nat)
    (h : ∀ v ∈ vals, v.shape = s) : shapesEqual vals = true := by
  cases vals with
  | nil => rfl
  | cons v rest =>
    simp only [shapesEqual, List.all_eq_true]
    intro w hw
    have h1 := h w (List.mem_cons_of_mem _ hw)
    have h2 := h v (List.mem_cons_self _ _)
    simp [h1, h2]

/-- The whole-column value list handed to one bulk put: the dataset's values
for every row in ascending order. -/
def bulkVals (n : Nat) (data : String → Nat → CellValue) (nm : String) :
    List CellValue :=
  (List.range n).map (fun r => data nm r)

theorem bulkVals_get? (n : Nat) (data : String → Nat → CellValue) (nm : String)
    (r : Nat) (hr : r < n) : (bulkVals n data nm).get? r = some (data nm r) := by
  simp [bulkVals, List.get?_eq_getElem?, hr]

/-- The `ColumnBulkPut` write strategy: for each column in descriptor order, one
whole-column bulk put. -/
def bulkCols (data : String → Nat → CellValue) :
    Table → List String → Except TableError Table
  | t, [] => .ok t
  | t, nm :: rest =>
    match bulkPut t nm (bulkVals t.row_count data nm) with
    | .ok t' => bulkCols data t' rest
    | .error e => .error e

def writeBulk (t : Table) (data : String → Nat → CellValue) :
    Except TableError Table :=
  bulkCols data t (colNames t.desc)

open Classical in
/-- Bulk-writing a fitting dataset column-by-column succeeds for any list of
declared column names and leaves every touched cell holding its dataset value. -/
theorem bulkCols_ok (data : String → Nat → CellValue) :
    ∀ (ns : List String) (t : Table),
    DataFits t.desc t.row_count data →
    (∀ nm ∈ ns, nm ∈ colNames t.desc) →
    ∃ t', bulkCols data t ns = .ok t' ∧ SameFrame t' t ∧
      ∀ nm r, t'.cells nm r =
        if nm ∈ ns ∧ r < t.row_count then some (data nm r) else t.cells nm r := by
  intro ns
  induction ns with
  | nil =>
    intro t _ _
    exact ⟨t, rfl, ⟨rfl, rfl, rfl, rfl⟩, by simp⟩
  | cons nm0 rest ih =>
    intro t hfits hsub
    obtain ⟨c, hfind, hmem, hname⟩ :=
      findColumn_mem t.desc nm0 (hsub nm0 (List.mem_cons_self _ _))
    have hlen : (bulkVals t.row_count data nm0).length = t.row_count := by
      simp [bulkVals]
    have hsh : shapesEqual (bulkVals t.row_count data nm0) = true := by
      apply shapesEqual_of_const _ ((data nm0 0).shape)
      intro v hv
      simp only [bulkVals, List.mem_map, List.mem_range] at hv
      obtain ⟨r, hr, rfl⟩ := hv
      have := (hfits c hmem r hr).2
      rwa [hname] at this
    have hall : (bulkVals t.row_count data nm0).all (fun v => shapeOK c v) = true := by
      rw [List.all_eq_true]
      intro v hv
      simp only [bulkVals, List.mem_map, List.mem_range] at hv
      obtain ⟨r, hr, rfl⟩ := hv
      have := (hfits c hmem r hr).1
      rwa [hname] at this
    have hbulk := bulkPut_ok t nm0 c _ hfind hlen hsh hall
    set t1 : Table := { t with cells := fun nm' i => if nm' = nm0 ∧ i < t.row_count then (bulkVals t.row_count data nm0).get? i else t.cells nm' i } with ht1
    obtain ⟨t2, hrun2, ⟨hdesc2, hcount2, hfill2, halloc2⟩, hcells2⟩ :=
      ih t1 hfits (by
        intro nm hnm
        exact hsub nm (List.mem_cons_of_mem _ hnm))
    refine ⟨t2, ?_, ⟨hdesc2, hcount2, hfill2, halloc2⟩, ?_⟩
    · show bulkCols data t (nm0 :: rest) = .ok t2
      unfold bulkCols
      rw [hbulk]
      exact hrun2
    · intro nm r
      rw [hcells2 nm r]
      by_cases hr : r < t.row_count
      · by_cases hrest : nm ∈ rest
        · rw [if_pos ⟨hrest, hr⟩, if_pos ⟨List.mem_cons_of_mem _ hrest, hr⟩]
        · by_cases heq : nm = nm0
          · rw [if_neg (by tauto)]
            have : t1.cells nm r = (bulkVals t.row_count data nm0).get? r := by
              simp [ht1, heq, hr]
            rw [this, bulkVals_get? _ _ _ _ hr, heq,
              if_pos ⟨List.mem_cons_self _ _, hr⟩]
          · rw [if_neg (by tauto)]
            have : t1.cells nm r = t.cells nm r := by
              simp [ht1, heq]
            rw [this, if_neg (by
              rintro ⟨h1, _⟩
              rcases List.mem_cons.mp h1 with h | h
              · exact heq h
              · exact hrest h)]
      · rw [if_neg (by tauto), if_neg (by tauto)]
        simp [ht1, hr]

open Classical in
/-- Writing a fitting dataset row-by-row over all rows: success and final
content. -/
theorem writeRowPut_ok (t : Table) (data : String → Nat → CellValue)
    (hfits : DataFits t.desc t.row_count data) :
    ∃ t', writeRowPut t data = .ok t' ∧ SameFrame t' t ∧
      ∀ nm r, t'.cells nm r =
        if nm ∈ colNames t.desc ∧ r < t.row_count then some (data nm r)
        else t.cells nm r := by
  obtain ⟨t', hrun, hframe, hcells⟩ :=
    rowPutRows_ok data (List.range t.row_count) t hfits
      (fun r hr => List.mem_range.mp hr)
  refine ⟨t', hrun, hframe, ?_⟩
  intro nm r
  rw [hcells nm r,
    if_congr (and_congr_right (fun _ => List.mem_range)) rfl rfl]

open Classical in
/-- Bulk-writing a fitting dataset over all declared columns: success and final
content. -/
theorem writeBulk_ok (t : Table) (data : String → Nat → CellValue)
    (hfits : DataFits t.desc t.row_count data) :
    ∃ t', writeBulk t data = .ok t' ∧ SameFrame t' t ∧
      ∀ nm r, t'.cells nm r =
        if nm ∈ colNames t.desc ∧ r < t.row_count then some (data nm r)
        else t.cells nm r := by
  exact bulkCols_ok data (colNames t.desc) t hfits (fun nm h => h)

/-- C1: writing the same logical dataset under the per-cell, row-wise and bulk
write strategies produces tables agreeing on every cell, hence with one
checksum. -/
theorem claim_C1_write_strategies_agree (t : Table) (data : String → Nat → CellValue)
    (hfits : DataFits t.desc t.row_count data) :
    ∃ t1 t2 t3, writeCellPut t data = .ok t1 ∧ writeRowPut t data = .ok t2 ∧
      writeBulk t data = .ok t3 ∧
      (∀ nm r, cellRead t1 nm r = cellRead t2 nm r ∧
        cellRead t2 nm r = cellRead t3 nm r) ∧
      checksum t1 = checksum t2 ∧ checksum t2 = checksum t3 := by
  obtain ⟨t1, h1, ⟨hd1, hc1, hf1, ha1⟩, hcells1⟩ := writeCellPut_ok t data hfits
  obtain ⟨t2, h2, ⟨hd2, hc2, hf2, ha2⟩, hcells2⟩ := writeRowPut_ok t data hfits
  obtain ⟨t3, h3, ⟨hd3, hc3, hf3, ha3⟩, hcells3⟩ := writeBulk_ok t data hfits
  have e12 : t1 = t2 := by
    ext1
    · rw [hd1, hd2]
    · rw [hc1, hc2]
    · funext nm r
      rw [hcells1 nm r, hcells2 nm r]
    · rw [hf1, hf2]
    · rw [ha1, ha2]
  have e23 : t2 = t3 := by
    ext1
    · rw [hd2, hd3]
    · rw [hc2, hc3]
    · funext nm r
      rw [hcells2 nm r, hcells3 nm r]
    · rw [hf2, hf3]
    · rw [ha2, ha3]
  exact ⟨t1, t2, t3, h1, h2, h3,
    fun nm r => ⟨by rw [e12], by rw [e23]⟩, by rw [e12], by rw [e23]⟩

/-- A small concrete table used to instantiate the strategy theorems: one
scalar column and one fixed-shape array column, two rows. -/
def wDesc : TableDescriptor :=
  ⟨[⟨"A", .float64, .scalar⟩, ⟨"B", .float64, .fixedArray [2]⟩]⟩

/-- A concrete dataset fitting `wDesc`. -/
def wData (nm : String) (r : Nat) : CellValue :=
  if nm = "A" then ⟨[], [(r : ℚ)]⟩ else ⟨[2], [(r : ℚ), 2 * (r : ℚ)]⟩

def wTable : Table := Table.create wDesc 2 .lazyZeroFill (fun _ _ => ⟨[], []⟩)

/-- Witness for C1: the strategy-agreement theorem applied to the concrete
two-column, two-row table. -/
theorem claim_C1_witness :
    DataFits wTable.desc wTable.row_count wData ∧
    (∃ t1 t2 t3, writeCellPut wTable wData = .ok t1 ∧
      writeRowPut wTable wData = .ok t2 ∧ writeBulk wTable wData = .ok t3 ∧
      (∀ nm r, cellRead t1 nm r = cellRead t2 nm r ∧
        cellRead t2 nm r = cellRead t3 nm r) ∧
      checksum t1 = checksum t2 ∧ checksum t2 = checksum t3) :=
  ⟨by decide, claim_C1_write_strategies_agree wTable wData (by decide)⟩

/-- C3: the Verifier's checksum (defined to iterate rows in ascending order and
columns in descriptor order into one accumulator) depends only on the table's
logical content: tables with equal descriptor, row count and cell content have
equal checksums — so two runs over the same table always agree. -/
theorem claim_C3_checksum_deterministic (t1 t2 : Table)
    (hdesc : t1.desc = t2.desc) (hcount : t1.row_count = t2.row_count)
    (hread : ∀ c ∈ t1.desc.columns, ∀ r < t1.row_count,
      cellRead t1 c.name r = cellRead t2 c.name r) :
    checksum t1 = checksum t2 := by
  unfold checksum
  rw [← hdesc, ← hcount]
  congr 1
  apply List.map_congr_left
  intro r hr
  congr 1
  apply List.map_congr_left
  intro c hc
  rw [hread c hc r (List.mem_range.mp hr)]

/-- A copy of the concrete table differing only in allocation strategy. -/
def wTable2 : Table :=
  { desc := wDesc, row_count := 2, cells := fun _ _ => none,
    fill := wTable.fill, alloc := .preReserve }

/-- Witness for C3: two tables with identical logical content (differing only
in allocation strategy) have one checksum. -/
theorem claim_C3_witness :
    wTable.desc = wTable2.desc ∧ wTable.row_count = wTable2.row_count ∧
    checksum wTable = checksum wTable2 :=
  ⟨rfl, rfl, claim_C3_checksum_deterministic wTable wTable2 rfl rfl
    (fun _ _ _ _ => rfl)⟩

/-- C4: the allocation strategy (and the implementation-defined content of
storage extended under it) chosen at creation never affects the content read
back from a fully populated table: bulk-writing one dataset into tables created
under any two strategies yields identical reads at every declared cell. -/
theorem claim_C4_alloc_strategies_agree (d : TableDescriptor) (n : Nat)
    (data : String → Nat → CellValue) (s1 s2 : AllocationStrategy)
    (m1 m2 : String → Nat → CellValue) (hfits : DataFits d n data) :
    ∃ t1 t2, writeBulk (Table.create d n s1 m1) data = .ok t1 ∧
      writeBulk (Table.create d n s2 m2) data = .ok t2 ∧
      ∀ c ∈ d.columns, ∀ r < n,
        cellRead t1 c.name r = data c.name r ∧
        cellRead t2 c.name r = data c.name r := by
  obtain ⟨t1, h1, _, hcells1⟩ := writeBulk_ok (Table.create d n s1 m1) data hfits
  obtain ⟨t2, h2, _, hcells2⟩ := writeBulk_ok (Table.create d n s2 m2) data hfits
  refine ⟨t1, t2, h1, h2, ?_⟩
  intro c hc r hr
  have hmem : c.name ∈ colNames d := List.mem_map.mpr ⟨c, hc, rfl⟩
  constructor
  · rw [cellRead, hcells1 c.name r, if_pos ⟨hmem, hr⟩]
    rfl
  · rw [cellRead, hcells2 c.name r, if_pos ⟨hmem, hr⟩]
    rfl

/-- Witness for C4: the allocation-agreement theorem applied to the concrete
two-column, two-row dataset under `LazyZeroFill` vs `PreReserve`. -/
theorem claim_C4_witness :
    DataFits wDesc 2 wData ∧
    (∃ t1 t2,
      writeBulk (Table.create wDesc 2 .lazyZeroFill (fun _ _ => ⟨[], []⟩)) wData = .ok t1 ∧
      writeBulk (Table.create wDesc 2 .preReserve (fun _ _ => ⟨[], [7]⟩)) wData = .ok t2 ∧
      ∀ c ∈ wDesc.columns, ∀ r < 2,
        cellRead t1 c.name r = wData c.name r ∧
        cellRead t2 c.name r = wData c.name r) :=
  ⟨by decide, claim_C4_alloc_strategies_agree wDesc 2 wData .lazyZeroFill .preReserve
    (fun _ _ => ⟨[], []⟩) (fun _ _ => ⟨[], [7]⟩) (by decide)⟩

/-- C7: round-trip — a successful `put` of any value `v` (any element type and
shape) at any row followed by a `get` of the same cell returns exactly `v`. -/
theorem claim_C7_put_get_roundtrip (t t' : Table) (nm : String) (r : Nat)
    (v : CellValue) (h : cellPut t nm r v = .ok t') :
    cellGet t' nm r = .ok v := by
  unfold cellPut at h
  cases hfind : findColumn t.desc nm with
  | none =>
    rw [hfind] at h
    cases h
  | some c =>
    rw [hfind] at h
    dsimp only at h
    by_cases hs : shapeOK c v = true
    · rw [if_pos hs] at h
      by_cases hr : r < t.row_count
      · rw [if_pos hr] at h
        obtain rfl := Except.ok.inj h
        simp [cellGet, hfind, hr, cellRead]
      · rw [if_neg hr] at h
        cases h
    · rw [if_neg hs] at h
      cases h

/-- The table obtained from `wTable` by one per-cell put into column A, row 0. -/
def wTableA : Table :=
  { wTable with cells := fun nm' i => if nm' = "A" ∧ i = 0 then some ⟨[], [5]⟩ else wTable.cells nm' i }

/-- Witness for C7: put then get at a concrete cell returns the written value. -/
theorem claim_C7_witness :
    cellPut wTable "A" 0 ⟨[], [5]⟩ = .ok wTableA ∧
    cellGet wTableA "A" 0 = .ok ⟨[], [5]⟩ :=
  ⟨rfl, claim_C7_put_get_roundtrip wTable wTableA "A" 0 ⟨[], [5]⟩ rfl⟩

/-- The descriptor built by `syscall_tracer.cpp`: four scalar columns and two
32×4 fixed-shape array columns. -/
def syscallDesc : TableDescriptor :=
  ⟨[⟨"TIME", .float64, .scalar⟩,
    ⟨"ANTENNA1", .int32, .scalar⟩,
    ⟨"ANTENNA2", .int32, .scalar⟩,
    ⟨"FLAG_ROW", .bool, .scalar⟩,
    ⟨"DATA", .complex64, .fixedArray [32, 4]⟩,
    ⟨"FLAG", .bool, .fixedArray [32, 4]⟩]⟩

/-- C5: requesting a column accessor for a name absent from the descriptor
fails with `NotFoundError` (the accessor request reads the table and never
mutates it); in particular `COL_0` is absent from the `syscall_tracer.cpp`
descriptor, so binding it always fails. -/
theorem claim_C5_column_not_found :
    (∀ (t : Table) (nm : String), (∀ c ∈ t.desc.columns, c.name ≠ nm) →
      t.column nm = .error .notFoundError) ∧
    (∀ t : Table, t.desc = syscallDesc →
      t.column "COL_0" = .error .notFoundError) := by
  constructor
  · intro t nm h
    unfold Table.column findColumn
    rw [List.find?_eq_none.mpr (by
      intro c hc
      simpa using h c hc)]
  · intro t hdesc
    unfold Table.column findColumn
    rw [hdesc]
    rfl

/-- A concrete table with the `syscall_tracer.cpp` descriptor and 100 rows. -/
def sTable : Table := Table.create syscallDesc 100 .lazyZeroFill (fun _ _ => ⟨[], []⟩)

/-- Witness for C5: the lookup of `COL_0` on the concrete tracer table fails. -/
theorem claim_C5_witness :
    (∀ c ∈ sTable.desc.columns, c.name ≠ "COL_0") ∧
    sTable.column "COL_0" = .error .notFoundError :=
  ⟨by decide, claim_C5_column_not_found.1 sTable "COL_0" (by decide)⟩

/-- C6: on a fixed-shape array column, a per-cell put at any row of the table
fails with `ShapeMismatchError` when the value's shape differs from the
declared dims, and succeeds when the shapes agree. -/
theorem claim_C6_fixed_shape_put (t : Table) (nm : String) (dims : List Nat)
    (c : ColumnSpec) (r : Nat) (v : CellValue)
    (hfind : findColumn t.desc nm = some c)
    (hclass : c.shapeClass = .fixedArray dims) (hr : r < t.row_count) :
    (v.shape ≠ dims → cellPut t nm r v = .error .shapeMismatchError) ∧
    (v.shape = dims → ∃ t', cellPut t nm r v = .ok t') := by
  constructor
  · intro hne
    have hs : shapeOK c v = false := by
      unfold shapeOK
      rw [hclass]
      simpa using hne
    unfold cellPut
    rw [hfind]
    simp [hs]
  · intro heq
    have hs : shapeOK c v = true := by
      unfold shapeOK
      rw [hclass]
      simpa using heq
    unfold cellPut
    rw [hfind]
    simp [hs, hr]

/-- Witness for C6: a 3-element put into the shape-[2] column B fails with a
shape mismatch, while a 2-element put succeeds. -/
theorem claim_C6_witness :
    findColumn wTable.desc "B" = some ⟨"B", .float64, .fixedArray [2]⟩ ∧
    (0 : Nat) < wTable.row_count ∧
    cellPut wTable "B" 0 ⟨[3], [1, 2, 3]⟩ = .error .shapeMismatchError ∧
    (∃ t', cellPut wTable "B" 0 ⟨[2], [1, 2]⟩ = .ok t') :=
  ⟨rfl, by decide,
    (claim_C6_fixed_shape_put wTable "B" [2] ⟨"B", .float64, .fixedArray [2]⟩ 0
      ⟨[3], [1, 2, 3]⟩ rfl rfl (by decide)).1 (by decide),
    (claim_C6_fixed_shape_put wTable "B" [2] ⟨"B", .float64, .fixedArray [2]⟩ 0
      ⟨[2], [1, 2]⟩ rfl rfl (by decide)).2 (by decide)⟩

/-- The checksum of a table whose declared cells read back as a dataset. -/
theorem checksum_of_content (t : Table) (data : String → Nat → CellValue)
    (h : ∀ c ∈ t.desc.columns, ∀ r < t.row_count,
      cellRead t c.name r = data c.name r) :
    checksum t = ((List.range t.row_count).map (fun r =>
      (t.desc.columns.map (fun c => cellSum (data c.name r))).sum)).sum := by
  unfold checksum
  congr 1
  apply List.map_congr_left
  intro r hr
  congr 1
  apply List.map_congr_left
  intro c hc
  rw [h c hc r (List.mem_range.mp hr)]

theorem list_range_map_sum (n : Nat) (f : Nat → ℚ) :
    ((List.range n).map f).sum = ∑ i ∈ Finset.range n, f i := by
  induction n with
  | zero => simp
  | succ m ih =>
    rw [List.range_succ, List.map_append, List.sum_append, Finset.sum_range_succ, ih]
    simp

/-- Scalar benchmark column name `COL_<i>` (`cpp_benchmark.cpp` line 28). -/
def benchColName (i : Nat) : String := "COL_" ++ toString i

/-- The benchmark drivers' descriptor: `ncols` scalar Float64 columns `COL_i`
plus one fixed-shape [3] Float64 column `UVW` (`cpp_benchmark.cpp` lines
27-30). -/
def benchDesc (ncols : Nat) : TableDescriptor :=
  ⟨(List.range ncols).map (fun i => ⟨benchColName i, .float64, .scalar⟩) ++
    [⟨"UVW", .float64, .fixedArray [3]⟩]⟩

/-- The benchmark dataset for the 3-scalar-column scenario: `COL_c` at row r
holds `c·1000 + r` and `UVW` at row r holds (0.1 r, 0.2 r, 0.3 r). -/
def scenarioData (nm : String) (r : Nat) : CellValue :=
  if nm = "UVW" then ⟨[3], [(r : ℚ) * 0.1, (r : ℚ) * 0.2, (r : ℚ) * 0.3]⟩
  else if nm = benchColName 0 then ⟨[], [(0 : ℚ) * 1000 + (r : ℚ)]⟩
  else if nm = benchColName 1 then ⟨[], [(1 : ℚ) * 1000 + (r : ℚ)]⟩
  else if nm = benchColName 2 then ⟨[], [(2 : ℚ) * 1000 + (r : ℚ)]⟩
  else ⟨[], []⟩

theorem scenarioFits : DataFits (benchDesc 3) 1000 scenarioData := by
  have hcols : (benchDesc 3).columns =
      [⟨benchColName 0, .float64, .scalar⟩, ⟨benchColName 1, .float64, .scalar⟩,
       ⟨benchColName 2, .float64, .scalar⟩, ⟨"UVW", .float64, .fixedArray [3]⟩] := rfl
  intro c hc r hr
  rw [hcols] at hc
  fin_cases hc <;> exact ⟨rfl, rfl⟩

/-- The per-row column sum of the scenario dataset. -/
theorem scenarioRowSum (r : Nat) :
    ((benchDesc 3).columns.map (fun c => cellSum (scenarioData c.name r))).sum =
      (∑ c ∈ Finset.range 3, ((c : ℚ) * 1000 + (r : ℚ))) +
      ((r : ℚ) * 0.1 + (r : ℚ) * 0.2 + (r : ℚ) * 0.3) := by
  show (((0 : ℚ) * 1000 + (r : ℚ)) + 0) + ((((1 : ℚ) * 1000 + (r : ℚ)) + 0) +
      ((((2 : ℚ) * 1000 + (r : ℚ)) + 0) +
        (((r : ℚ) * 0.1 + ((r : ℚ) * 0.2 + ((r : ℚ) * 0.3 + 0))) + 0))) = _
  rw [Finset.sum_range_succ, Finset.sum_range_succ, Finset.sum_range_succ,
    Finset.sum_range_zero]
  push_cast
  ring

/-- C2: for the 3-scalar-column + UVW descriptor over 1000 rows, written under
the bulk strategy on a LazyZeroFill table, the Verifier's checksum equals the
closed-form double sum of `c·1000 + r` plus the sum of `0.1r + 0.2r + 0.3r`. -/
theorem claim_C2_scenario_checksum :
    ∃ t', writeBulk (Table.create (benchDesc 3) 1000 .lazyZeroFill
        (fun _ _ => ⟨[], []⟩)) scenarioData = .ok t' ∧
      checksum t' =
        (∑ c ∈ Finset.range 3, ∑ r ∈ Finset.range 1000,
          ((c : ℚ) * 1000 + (r : ℚ))) +
        (∑ r ∈ Finset.range 1000,
          ((r : ℚ) * 0.1 + (r : ℚ) * 0.2 + (r : ℚ) * 0.3)) := by
  obtain ⟨t', hrun, ⟨hdesc, hcount, _, _⟩, hcells⟩ :=
    writeBulk_ok (Table.create (benchDesc 3) 1000 .lazyZeroFill
      (fun _ _ => ⟨[], []⟩)) scenarioData scenarioFits
  refine ⟨t', hrun, ?_⟩
  have hread : ∀ c ∈ t'.desc.columns, ∀ r < t'.row_count,
      cellRead t' c.name r = scenarioData c.name r := by
    intro c hc r hr
    rw [hdesc] at hc
    rw [hcount] at hr
    rw [cellRead, hcells c.name r, if_pos ⟨List.mem_map.mpr ⟨c, hc, rfl⟩, hr⟩]
    rfl
  rw [checksum_of_content t' scenarioData hread, hdesc, hcount]
  show ((List.range 1000).map (fun r =>
    ((benchDesc 3).columns.map (fun c => cellSum (scenarioData c.name r))).sum)).sum = _
  rw [list_range_map_sum,
    show (∑ r ∈ Finset.range 1000, ((benchDesc 3).columns.map
        (fun c => cellSum (scenarioData c.name r))).sum) =
      ∑ r ∈ Finset.range 1000,
        ((∑ c ∈ Finset.range 3, ((c : ℚ) * 1000 + (r : ℚ))) +
          ((r : ℚ) * 0.1 + (r : ℚ) * 0.2 + (r : ℚ) * 0.3))
      from Finset.sum_congr rfl (fun r _ => scenarioRowSum r),
    Finset.sum_add_distrib, Finset.sum_comm]

/-- The C locale whitespace test (std::isspace on a byte), as invoked by
`parse_positive_int` (space, tab, newline, vertical tab, form feed, carriage
return). -/
def isSpaceChar (ch : Char) : Bool :=
  ch = ' ' || ch = '\t' || ch = '\n' || ch = '\x0b' || ch = '\x0c' || ch = '\r'

/-- The C locale digit test (std::isdigit on a byte): ASCII codes 48-57. -/
def isDigitChar (ch : Char) : Bool :=
  48 ≤ ch.toNat && ch.toNat ≤ 57

def INT32_MAX : Int := 2147483647

/-- The 64-bit two's-complement wraparound of the C `long` accumulator. -/
def wrap64 (x : Int) : Int := (x + 2 ^ 63) % 2 ^ 64 - 2 ^ 63

/-- The digit-accumulation loop of `parse_positive_int`:
`value = value * 10 + (*s - '0')` while digits last, on a 64-bit `long`. -/
def digitsLoop (value : Int) : List Char → Int
  | [] => value
  | ch :: rest =>
    if isDigitChar ch then
      digitsLoop (wrap64 (value * 10 + ((ch.toNat : Int) - 48))) rest
    else value

/-- The optional plus-sign skip of the parser (one leading '+' is dropped). -/
def dropPlus : List Char → List Char
  | [] => []
  | ch :: rest => if ch = '+' then rest else ch :: rest

/-- The function `parse_positive_int` from `cpp_benchmark_instrumented.cpp` (lines 151-164):
skip leading whitespace, skip one optional '+', accumulate decimal digits into
a 64-bit `long`, then clamp any negative or above-`INT32_MAX` result to 0. -/
def parse_positive_int (s : List Char) : Int :=
  let value := digitsLoop 0 (dropPlus (s.dropWhile isSpaceChar))
  if value < 0 ∨ value > INT32_MAX then 0 else value

/-- The exact numeric value of a digit string. -/
def digitsVal (ds : List Char) : Int :=
  ds.foldl (fun a ch => a * 10 + ((ch.toNat : Int) - 48)) 0

/-- The digit accumulation without wraparound, from an arbitrary start value. -/
def pureLoop (value : Int) (ds : List Char) : Int :=
  ds.foldl (fun a ch => a * 10 + ((ch.toNat : Int) - 48)) value

theorem wrap64_eq (x : Int) (h1 : -(2 ^ 63) ≤ x) (h2 : x < 2 ^ 63) :
    wrap64 x = x := by
  unfold wrap64
  rw [Int.emod_eq_of_lt (by linarith) (by linarith)]
  ring

theorem pureLoop_mono (ds : List Char) : ∀ v : Int,
    (∀ ch ∈ ds, isDigitChar ch = true) → 0 ≤ v →
    v ≤ pureLoop v ds ∧ 0 ≤ pureLoop v ds := by
  induction ds with
  | nil =>
    intro v _ h0
    exact ⟨le_refl v, h0⟩
  | cons ch rest ih =>
    intro v hdig h0
    have hd : (48 : Nat) ≤ ch.toNat := by
      have := hdig ch (List.mem_cons_self _ _)
      simp only [isDigitChar, Bool.and_eq_true, decide_eq_true_iff] at this
      exact this.1
    have hd' : (0 : Int) ≤ (ch.toNat : Int) - 48 := by
      have : (48 : Int) ≤ (ch.toNat : Int) := by exact_mod_cast hd
      linarith
    have hstep : v ≤ v * 10 + ((ch.toNat : Int) - 48) := by nlinarith
    have h0' : (0 : Int) ≤ v * 10 + ((ch.toNat : Int) - 48) := by nlinarith
    obtain ⟨hle, hnn⟩ := ih (v * 10 + ((ch.toNat : Int) - 48))
      (fun c hc => hdig c (List.mem_cons_of_mem _ hc)) h0'
    exact ⟨le_trans hstep hle, hnn⟩

theorem digitsLoop_eq_pureLoop (ds : List Char) : ∀ v : Int,
    (∀ ch ∈ ds, isDigitChar ch = true) → 0 ≤ v →
    pureLoop v ds ≤ INT32_MAX → digitsLoop v ds = pureLoop v ds := by
  induction ds with
  | nil =>
    intro v _ _ _
    rfl
  | cons ch rest ih =>
    intro v hdig h0 hbound
    have hchd : isDigitChar ch = true := hdig ch (List.mem_cons_self _ _)
    have hd : (48 : Nat) ≤ ch.toNat := by
      simp only [isDigitChar, Bool.and_eq_true, decide_eq_true_iff] at hchd
      exact hchd.1
    have hd' : (0 : Int) ≤ (ch.toNat : Int) - 48 := by
      have : (48 : Int) ≤ (ch.toNat : Int) := by exact_mod_cast hd
      linarith
    have h0' : (0 : Int) ≤ v * 10 + ((ch.toNat : Int) - 48) := by nlinarith
    have hrest : ∀ c ∈ rest, isDigitChar c = true :=
      fun c hc => hdig c (List.mem_cons_of_mem _ hc)
    have hpure : pureLoop v (ch :: rest) =
        pureLoop (v * 10 + ((ch.toNat : Int) - 48)) rest := rfl
    have hsmall : v * 10 + ((ch.toNat : Int) - 48) < 2 ^ 63 := by
      have := (pureLoop_mono rest _ hrest h0').1
      rw [hpure] at hbound
      have : v * 10 + ((ch.toNat : Int) - 48) ≤ INT32_MAX := le_trans this hbound
      unfold INT32_MAX at this
      linarith
    have hwrap : wrap64 (v * 10 + ((ch.toNat : Int) - 48)) =
        v * 10 + ((ch.toNat : Int) - 48) :=
      wrap64_eq _ (by linarith) hsmall
    show (if isDigitChar ch then
      digitsLoop (wrap64 (v * 10 + ((ch.toNat : Int) - 48))) rest else v) = _
    rw [if_pos hchd, hwrap, hpure]
    exact ih _ hrest h0' (by rw [← hpure]; exact hbound)

theorem digit_not_space (ch : Char) (h : isDigitChar ch = true) :
    isSpaceChar ch = false := by
  by_contra hc
  rw [Bool.not_eq_false] at hc
  simp only [isSpaceChar, Bool.or_eq_true, decide_eq_true_iff] at hc
  rcases hc with ((((h' | h') | h') | h') | h') | h' <;> subst h' <;>
    exact absurd h (by decide)

theorem digit_ne_plus (ch : Char) (h : isDigitChar ch = true) : ch ≠ '+' := by
  intro heq
  subst heq
  exact absurd h (by decide)

theorem dropWhile_all_append (p : Char → Bool) (ws xs : List Char)
    (h : ∀ ch ∈ ws, p ch = true) :
    (ws ++ xs).dropWhile p = xs.dropWhile p := by
  induction ws with
  | nil => rfl
  | cons w rest ih =>
    rw [List.cons_append,
      List.dropWhile_cons_of_pos (h w (List.mem_cons_self _ _))]
    exact ih (fun c hc => h c (List.mem_cons_of_mem _ hc))

/-- C8: `parse_positive_int` always returns a value in [0, INT32_MAX]; on a
string of optional whitespace, an optional '+', and digits whose numeric value
is at most INT32_MAX it returns exactly that value; and on a string whose first
non-whitespace character is '-' or any other non-digit (other than the handled
'+') it returns 0. -/
theorem claim_C8_parse_positive_int :
    (∀ s : List Char, 0 ≤ parse_positive_int s ∧
      parse_positive_int s ≤ INT32_MAX) ∧
    (∀ ws plus ds : List Char,
      (∀ ch ∈ ws, isSpaceChar ch = true) →
      (plus = [] ∨ plus = ['+']) →
      (∀ ch ∈ ds, isDigitChar ch = true) →
      digitsVal ds ≤ INT32_MAX →
      parse_positive_int (ws ++ (plus ++ ds)) = digitsVal ds) ∧
    (∀ (ws rest : List Char) (ch : Char),
      (∀ c ∈ ws, isSpaceChar c = true) →
      isSpaceChar ch = false → ch ≠ '+' → isDigitChar ch = false →
      parse_positive_int (ws ++ ch :: rest) = 0) := by
  refine ⟨?_, ?_, ?_⟩
  · intro s
    unfold parse_positive_int
    by_cases h : digitsLoop 0 (dropPlus (s.dropWhile isSpaceChar)) < 0 ∨
      digitsLoop 0 (dropPlus (s.dropWhile isSpaceChar)) > INT32_MAX
    · rw [if_pos h]
      exact ⟨le_refl 0, by unfold INT32_MAX; norm_num⟩
    · rw [if_neg h]
      push_neg at h
      exact ⟨h.1, h.2⟩
  · intro ws plus ds hws hplus hds hbound
    have hdrop : (ws ++ (plus ++ ds)).dropWhile isSpaceChar = plus ++ ds := by
      rw [dropWhile_all_append isSpaceChar ws (plus ++ ds) hws]
      rcases hplus with rfl | rfl
      · rw [List.nil_append]
        cases ds with
        | nil => rfl
        | cons ch rest =>
          exact List.dropWhile_cons_of_neg (by
            rw [digit_not_space ch (hds ch (List.mem_cons_self _ _))]
            exact Bool.false_ne_true)
      · rw [List.cons_append, List.nil_append]
        exact List.dropWhile_cons_of_neg (by decide)
    have hplusdrop : dropPlus (plus ++ ds) = ds := by
      rcases hplus with rfl | rfl
      · rw [List.nil_append]
        cases ds with
        | nil => rfl
        | cons ch rest =>
          simp only [dropPlus]
          rw [if_neg (digit_ne_plus ch (hds ch (List.mem_cons_self _ _)))]
      · rw [List.cons_append, List.nil_append]
        simp only [dropPlus]
        simp
    have hge : (0 : Int) ≤ digitsVal ds := (pureLoop_mono ds 0 hds (le_refl 0)).2
    have hloop : digitsLoop 0 ds = digitsVal ds :=
      digitsLoop_eq_pureLoop ds 0 hds (le_refl 0) hbound
    unfold parse_positive_int
    rw [hdrop, hplusdrop, hloop,
      if_neg (by push_neg; exact ⟨hge, hbound⟩)]
  · intro ws rest ch hws hsp hpl hdig
    have hdrop : (ws ++ ch :: rest).dropWhile isSpaceChar = ch :: rest := by
      rw [dropWhile_all_append isSpaceChar ws (ch :: rest) hws]
      exact List.dropWhile_cons_of_neg (by rw [hsp]; exact Bool.false_ne_true)
    have hplusdrop : dropPlus (ch :: rest) = ch :: rest := by
      simp only [dropPlus]
      rw [if_neg hpl]
    have hloop : digitsLoop 0 (ch :: rest) = 0 := by
      show (if isDigitChar ch then
        digitsLoop (wrap64 (0 * 10 + ((ch.toNat : Int) - 48))) rest else 0) = 0
      rw [if_neg (by rw [hdig]; exact Bool.false_ne_true)]
    unfold parse_positive_int
    rw [hdrop, hplusdrop, hloop, if_neg (by push_neg; exact ⟨le_refl 0, by unfold INT32_MAX; norm_num⟩)]

/-- Witness for C8: the parser applied to `" +42"` returns 42. -/
theorem claim_C8_witness :
    (∀ ch ∈ [' '], isSpaceChar ch = true) ∧
    ((['+'] : List Char) = [] ∨ (['+'] : List Char) = ['+']) ∧
    (∀ ch ∈ ['4', '2'], isDigitChar ch = true) ∧
    digitsVal ['4', '2'] ≤ INT32_MAX ∧
    parse_positive_int ([' '] ++ (['+'] ++ ['4', '2'])) = digitsVal ['4', '2'] ∧
    digitsVal ['4', '2'] = 42 :=
  ⟨by decide, Or.inr rfl, by decide, by decide,
    claim_C8_parse_positive_int.2.1 [' '] ['+'] ['4', '2'] (by decide)
      (Or.inr rfl) (by decide) (by decide), by decide⟩

/-- The scalar value the benchmark writes at (col c, row r): `c*1000.0 + r`. -/
def benchScalar (c r : Nat) : CellValue := ⟨[], [(c : ℚ) * 1000 + (r : ℚ)]⟩

/-- The UVW value the benchmark writes at row r: (0.1 r, 0.2 r, 0.3 r). -/
def benchUVW (r : Nat) : CellValue :=
  ⟨[3], [(r : ℚ) * 0.1, (r : ℚ) * 0.2, (r : ℚ) * 0.3]⟩

/-- The benchmark dataset keyed by column name (the row-wise write path builds
its per-row record keyed by column name). -/
def benchData (ncols : Nat) (nm : String) (r : Nat) : CellValue :=
  if nm = "UVW" then benchUVW r
  else
    match (List.range ncols).find? (fun c => benchColName c = nm) with
    | some c => benchScalar c r
    | none => ⟨[], []⟩

/-- The per-cell writes of the `column_put_bulk` branch of `cpp_benchmark.cpp`
(lines 38-58): scalar columns in column-major order, then UVW row-by-row. -/
def benchCellTriples (nrows ncols : Nat) : List (String × Nat × CellValue) :=
  ((List.range ncols).flatMap (fun c =>
    (List.range nrows).map (fun r => (benchColName c, r, benchScalar c r)))) ++
  (List.range nrows).map (fun r => ("UVW", r, benchUVW r))

/-- The benchmark table as created by `cpp_benchmark.cpp` (lines 33-34). -/
def benchTable (nrows ncols : Nat) : Table :=
  Table.create (benchDesc ncols) nrows .lazyZeroFill (fun _ _ => ⟨[], []⟩)

/-- The write phase of `cpp_benchmark.cpp` `main` (lines 38-79): dispatch on
`WRITE_MODE`; the two recognized modes write every cell, any other string
falls through the if/else-if chain and writes nothing, with no error raised. -/
def benchWrite (mode : String) (nrows ncols : Nat) (t : Table) :
    Except TableError Table :=
  if mode = "column_put_bulk" then putCells t (benchCellTriples nrows ncols)
  else if mode = "row_put_bulk" then
    rowPutRows (benchData ncols) t (List.range nrows)
  else .ok t

/-- One scalar read `col(row_idx)`: the scalar element of the cell. -/
def scalarAt (v : CellValue) : ℚ := v.values.getD 0 0

/-- The inner column loop of the read-back phase: add every scalar column's
value at one row to the running checksum. -/
def benchReadCols (t : Table) (r : Nat) (acc : ℚ) :
    List Nat → Except TableError ℚ
  | [] => .ok acc
  | c :: rest =>
    match cellGet t (benchColName c) r with
    | .ok v => benchReadCols t r (acc + scalarAt v) rest
    | .error e => .error e

/-- One row of the read-back phase (`cpp_benchmark.cpp` lines 85-97): the
scalar columns, then the first three UVW elements. -/
def benchReadRow (t : Table) (ncols r : Nat) (acc : ℚ) : Except TableError ℚ :=
  match benchReadCols t r acc (List.range ncols) with
  | .ok acc2 =>
    match cellGet t "UVW" r with
    | .ok uvw =>
      .ok (acc2 + ((List.range 3).map (fun i => uvw.values.getD i 0)).sum)
    | .error e => .error e
  | .error e => .error e

/-- The row loop of the read-back phase with its running accumulator. -/
def benchReadRows (t : Table) (ncols : Nat) (acc : ℚ) :
    List Nat → Except TableError ℚ
  | [] => .ok acc
  | r :: rest =>
    match benchReadRow t ncols r acc with
    | .ok acc2 => benchReadRows t ncols acc2 rest
    | .error e => .error e

/-- The read-back phase of `cpp_benchmark.cpp` (lines 84-97). -/
def benchRead (t : Table) (nrows ncols : Nat) : Except TableError ℚ :=
  benchReadRows t ncols 0 (List.range nrows)

/-- The `main` of `cpp_benchmark.cpp` after argument parsing: create the table, run
the write phase for the selected mode, then the read-back phase; `.ok` carries
the printed checksum (exit status 0), `.error` an uncaught library failure. -/
def benchMain (mode : String) (nrows ncols : Nat) : Except TableError ℚ :=
  match benchWrite mode nrows ncols (benchTable nrows ncols) with
  | .ok t => benchRead t nrows ncols
  | .error e => .error e

/-- A list of valid cell puts (declared columns, conforming shapes, in-range
rows) always succeeds, whatever the values are. -/
theorem putCells_succeeds :
    ∀ (ps : List (String × Nat × CellValue)) (t : Table),
    (∀ p ∈ ps, (∃ c, findColumn t.desc p.1 = some c ∧ shapeOK c p.2.2 = true) ∧
      p.2.1 < t.row_count) →
    ∃ t', putCells t ps = .ok t' ∧ SameFrame t' t := by
  intro ps
  induction ps with
  | nil =>
    intro t _
    exact ⟨t, rfl, rfl, rfl, rfl, rfl⟩
  | cons p rest ih =>
    intro t h
    obtain ⟨nm0, r0, v0⟩ := p
    obtain ⟨⟨c, hfind, hshape⟩, hr⟩ := h _ (List.mem_cons_self _ _)
    simp only at hfind hshape hr
    have hput := cellPut_ok t nm0 r0 v0 c hfind hshape hr
    obtain ⟨t', hrun, hframe⟩ :=
      ih { t with cells := fun nm' i =>
          if nm' = nm0 ∧ i = r0 then some v0 else t.cells nm' i }
        (fun q hq => h q (List.mem_cons_of_mem _ hq))
    refine ⟨t', ?_, hframe⟩
    simpa [putCells, hput] using hrun

theorem benchColName_ne_uvw (c : Nat) : benchColName c ≠ "UVW" := by
  intro h
  have hd := congrArg String.data h
  rw [benchColName] at hd
  simp [String.data_append] at hd

theorem find?_append_of_none {α : Type} (p : α → Bool) (l1 l2 : List α)
    (h : ∀ x ∈ l1, ¬ p x = true) :
    (l1 ++ l2).find? p = l2.find? p := by
  induction l1 with
  | nil => rfl
  | cons a rest ih =>
    show List.find? p (a :: (rest ++ l2)) = List.find? p l2
    rw [List.find?_cons_of_neg _ (h a (List.mem_cons_self _ _))]
    exact ih (fun x hx => h x (List.mem_cons_of_mem _ hx))

theorem findColumn_benchDesc_col (ncols c : Nat) (hc : c < ncols) :
    ∃ spec, findColumn (benchDesc ncols) (benchColName c) = some spec ∧
      spec.shapeClass = .scalar := by
  obtain ⟨spec, hfind, hmem, hname⟩ :=
    findColumn_mem (benchDesc ncols) (benchColName c) (by
      unfold colNames benchDesc
      rw [List.map_append]
      apply List.mem_append_left
      rw [List.map_map]
      exact List.mem_map.mpr ⟨c, List.mem_range.mpr hc, rfl⟩)
  refine ⟨spec, hfind, ?_⟩
  unfold benchDesc at hmem
  rcases List.mem_append.mp hmem with h | h
  · obtain ⟨i, _, rfl⟩ := List.mem_map.mp h
    rfl
  · simp only [List.mem_singleton] at h
    subst h
    exact absurd hname.symm (benchColName_ne_uvw c)

theorem findColumn_benchDesc_uvw (ncols : Nat) :
    findColumn (benchDesc ncols) "UVW" =
      some ⟨"UVW", .float64, .fixedArray [3]⟩ := by
  unfold findColumn benchDesc
  rw [find?_append_of_none _ _ _ (by
    intro x hx
    obtain ⟨i, _, rfl⟩ := List.mem_map.mp hx
    simpa using benchColName_ne_uvw i)]
  rfl

theorem benchData_shape (ncols : Nat) (nm : String) (r : Nat) :
    (benchData ncols nm r).shape = if nm = "UVW" then [3] else [] := by
  unfold benchData
  by_cases h : nm = "UVW"
  · rw [if_pos h, if_pos h]
    rfl
  · rw [if_neg h, if_neg h]
    cases hfind : (List.range ncols).find? (fun c => benchColName c = nm) with
    | none => rfl
    | some c => rfl

theorem benchDataFits (ncols nrows : Nat) :
    DataFits (benchDesc ncols) nrows (benchData ncols) := by
  intro c hc r hr
  unfold benchDesc at hc
  rcases List.mem_append.mp hc with h | h
  · obtain ⟨i, _, rfl⟩ := List.mem_map.mp h
    refine ⟨?_, ?_⟩
    · show decide ((benchData ncols (benchColName i) r).shape = []) = true
      rw [benchData_shape, if_neg (benchColName_ne_uvw i)]
      rfl
    · rw [benchData_shape, benchData_shape]
  · simp only [List.mem_singleton] at h
    subst h
    refine ⟨?_, ?_⟩
    · show decide ((benchData ncols "UVW" r).shape = [3]) = true
      rw [benchData_shape, if_pos rfl]
      rfl
    · rw [benchData_shape, benchData_shape]

/-- Every execution of the write phase succeeds, whatever the mode. -/
theorem benchWrite_ok (mode : String) (nrows ncols : Nat) :
    ∃ t', benchWrite mode nrows ncols (benchTable nrows ncols) = .ok t' ∧
      SameFrame t' (benchTable nrows ncols) := by
  unfold benchWrite
  by_cases h1 : mode = "column_put_bulk"
  · rw [if_pos h1]
    apply putCells_succeeds
    intro p hp
    unfold benchCellTriples at hp
    rcases List.mem_append.mp hp with h | h
    · obtain ⟨c, hcm, hmem⟩ := List.mem_flatMap.mp h
      obtain ⟨r, hrm, rfl⟩ := List.mem_map.mp hmem
      obtain ⟨spec, hfind, hclass⟩ :=
        findColumn_benchDesc_col ncols c (List.mem_range.mp hcm)
      refine ⟨⟨spec, hfind, ?_⟩, List.mem_range.mp hrm⟩
      unfold shapeOK
      rw [hclass]
      rfl
    · obtain ⟨r, hrm, rfl⟩ := List.mem_map.mp h
      exact ⟨⟨_, findColumn_benchDesc_uvw ncols, rfl⟩, List.mem_range.mp hrm⟩
  · rw [if_neg h1]
    by_cases h2 : mode = "row_put_bulk"
    · rw [if_pos h2]
      obtain ⟨t', hrun, hframe, _⟩ :=
        rowPutRows_ok (benchData ncols) (List.range nrows)
          (benchTable nrows ncols) (benchDataFits ncols nrows)
          (fun r hr => List.mem_range.mp hr)
      exact ⟨t', hrun, hframe⟩
    · rw [if_neg h2]
      exact ⟨_, rfl, rfl, rfl, rfl, rfl⟩

theorem cellGet_ok (t : Table) (nm : String) (r : Nat)
    (h : (findColumn t.desc nm).isSome = true) (hr : r < t.row_count) :
    cellGet t nm r = .ok (cellRead t nm r) := by
  unfold cellGet
  obtain ⟨c, hc⟩ := Option.isSome_iff_exists.mp h
  rw [hc]
  dsimp only
  rw [if_pos hr]

theorem benchReadCols_ok (t : Table) (ncols : Nat)
    (hdesc : t.desc = benchDesc ncols) (r : Nat) (hr : r < t.row_count) :
    ∀ (cs : List Nat) (acc : ℚ), (∀ c ∈ cs, c < ncols) →
    ∃ q, benchReadCols t r acc cs = .ok q := by
  intro cs
  induction cs with
  | nil =>
    intro acc _
    exact ⟨acc, rfl⟩
  | cons c rest ih =>
    intro acc h
    obtain ⟨spec, hfind, _⟩ :=
      findColumn_benchDesc_col ncols c (h c (List.mem_cons_self _ _))
    have hget := cellGet_ok t (benchColName c) r
      (by rw [hdesc, hfind]; rfl) hr
    obtain ⟨q, hq⟩ := ih (acc + scalarAt (cellRead t (benchColName c) r))
      (fun c' hc' => h c' (List.mem_cons_of_mem _ hc'))
    refine ⟨q, ?_⟩
    show (match cellGet t (benchColName c) r with
      | .ok v => benchReadCols t r (acc + scalarAt v) rest
      | .error e => .error e) = .ok q
    rw [hget]
    exact hq

theorem benchReadRows_ok (t : Table) (ncols : Nat)
    (hdesc : t.desc = benchDesc ncols) :
    ∀ (rs : List Nat) (acc : ℚ), (∀ r ∈ rs, r < t.row_count) →
    ∃ q, benchReadRows t ncols acc rs = .ok q := by
  intro rs
  induction rs with
  | nil =>
    intro acc _
    exact ⟨acc, rfl⟩
  | cons r rest ih =>
    intro acc h
    have hr := h r (List.mem_cons_self _ _)
    obtain ⟨acc2, hcols⟩ := benchReadCols_ok t ncols hdesc r hr
      (List.range ncols) acc (fun c hc => List.mem_range.mp hc)
    have hget := cellGet_ok t "UVW" r
      (by rw [hdesc, findColumn_benchDesc_uvw]; rfl) hr
    obtain ⟨q, hq⟩ := ih
      (acc2 + ((List.range 3).map
        (fun i => (cellRead t "UVW" r).values.getD i 0)).sum)
      (fun r' hr' => h r' (List.mem_cons_of_mem _ hr'))
    refine ⟨q, ?_⟩
    show (match benchReadRow t ncols r acc with
      | .ok acc2 => benchReadRows t ncols acc2 rest
      | .error e => .error e) = .ok q
    unfold benchReadRow
    rw [hcols, hget]
    exact hq

/-- The read-back phase succeeds on any table with the benchmark descriptor. -/
theorem benchRead_ok (t : Table) (nrows ncols : Nat)
    (hdesc : t.desc = benchDesc ncols) (hcount : t.row_count = nrows) :
    ∃ q, benchRead t nrows ncols = .ok q :=
  benchReadRows_ok t ncols hdesc (List.range nrows) 0
    (fun r hr => by rw [hcount]; exact List.mem_range.mp hr)

/-- C9: any `WRITE_MODE` other than the two recognized modes writes no cell,
yet the read-back loop still runs to completion, a checksum is produced and
the program exits with status 0 — the unrecognized mode is never reported. -/
theorem claim_C9_unknown_mode_silent (mode : String) (nrows ncols : Nat)
    (h1 : mode ≠ "column_put_bulk") (h2 : mode ≠ "row_put_bulk") :
    benchWrite mode nrows ncols (benchTable nrows ncols) =
      .ok (benchTable nrows ncols) ∧
    (∀ nm r, (benchTable nrows ncols).cells nm r = none) ∧
    (∃ q, benchMain mode nrows ncols = .ok q) := by
  have hw : benchWrite mode nrows ncols (benchTable nrows ncols) =
      .ok (benchTable nrows ncols) := by
    unfold benchWrite
    rw [if_neg h1, if_neg h2]
  refine ⟨hw, fun nm r => rfl, ?_⟩
  obtain ⟨q, hq⟩ := benchRead_ok (benchTable nrows ncols) nrows ncols rfl rfl
  refine ⟨q, ?_⟩
  unfold benchMain
  rw [hw]
  exact hq

/-- Witness for C9: the unknown mode "bogus" on a 2-row, 1-column table. -/
theorem claim_C9_witness :
    ("bogus" : String) ≠ "column_put_bulk" ∧
    ("bogus" : String) ≠ "row_put_bulk" ∧
    (benchWrite "bogus" 2 1 (benchTable 2 1) = .ok (benchTable 2 1) ∧
      (∀ nm r, (benchTable 2 1).cells nm r = none) ∧
      (∃ q, benchMain "bogus" 2 1 = .ok q)) :=
  ⟨by decide, by decide,
    claim_C9_unknown_mode_silent "bogus" 2 1 (by decide) (by decide)⟩

/-- C10: every row index the driver passes to a put or get is below the row
count the table was created with — the whole run returns `.ok`, so the
out-of-range row branch (`IndexError`) of the cell accessors is unreachable. -/
theorem claim_C10_row_indices_in_range (mode : String) (nrows ncols : Nat) :
    (∀ p ∈ benchCellTriples nrows ncols, p.2.1 < nrows) ∧
    (∀ r ∈ List.range nrows, r < nrows) ∧
    (∃ q, benchMain mode nrows ncols = .ok q) := by
  refine ⟨?_, fun r hr => List.mem_range.mp hr, ?_⟩
  · intro p hp
    unfold benchCellTriples at hp
    rcases List.mem_append.mp hp with h | h
    · obtain ⟨c, _, hmem⟩ := List.mem_flatMap.mp h
      obtain ⟨r, hr, rfl⟩ := List.mem_map.mp hmem
      exact List.mem_range.mp hr
    · obtain ⟨r, hr, rfl⟩ := List.mem_map.mp h
      exact List.mem_range.mp hr
  · obtain ⟨t', hw, hdesc, hcount, _, _⟩ := benchWrite_ok mode nrows ncols
    obtain ⟨q, hq⟩ := benchRead_ok t' nrows ncols
      (by rw [hdesc]; rfl) (by rw [hcount]; rfl)
    refine ⟨q, ?_⟩
    unfold benchMain
    rw [hw]
    exact hq

end CasaTables
